import Mathlib

/-!
Shallow embedding of the SatNeRF model architecture (src/models.py): the
`Siren` activation, the `Mapping` positional encoder, and the `NeRF` network
(construction shapes and forward pass).  A tensor of shape (B, C) is embedded
as a list of B rows, each a list of C real scalars; every torch operation the
code uses (cat and split along the last axis, Linear, elementwise activations)
acts row by row.  Fallible torch operations (the shape-checked Linear matmul,
torch.split) return Option.  Frequency bands are computed in exact rational
arithmetic, mirroring torch.linspace's closed form.
-/

namespace SatNeRF

/-- A helper for torch: `torch.linspace start stop steps` returns `steps`
evenly spaced values from `start` to `stop`; a single value `start` when
`steps = 1`, empty when `steps = 0`. -/
def linspace (s e : ℚ) (steps : ℕ) : List ℚ :=
  if steps ≤ 1 then (List.range steps).map (fun _ => s)
  else
    (List.range steps).map
      (fun (i : ℕ) => s + (i : ℚ) * ((e - s) / ((steps : ℚ) - 1)))

/-- Elementwise float `2 ** q` for the integer-valued tensors the source
applies it to (`2**torch.linspace(0, N-1, N)` in `Mapping.__init__`): exact on
integers, which are the only values arising there. -/
def pow2 (q : ℚ) : ℚ :=
  if q.den = 1 then (2 : ℚ) ^ q.num else 0

/-- `Mapping.__init__`: `self.freq_bands`, either
`2**torch.linspace(0, N_freqs-1, N_freqs)` (logscale) or
`torch.linspace(1, 2**(N_freqs-1), N_freqs)`. -/
def freq_bands (N : ℕ) (logscale : Bool) : List ℚ :=
  if logscale then (linspace 0 ((N : ℚ) - 1) N).map pow2
  else linspace 1 (pow2 ((N : ℚ) - 1)) N

/-- `Mapping.__init__`:
`self.out_channels = self.in_channels*(len(self.funcs)*self.N_freqs+1)`,
with `self.funcs = [torch.sin, torch.cos]` of length 2. -/
def Mapping.out_channels (N in_ch : ℕ) : ℕ :=
  in_ch * (2 * N + 1)

/-- One row of `Mapping.forward`: for each frequency band in order, a
`sin(freq*x)` block then a `cos(freq*x)` block (`self.funcs` iteration order),
all concatenated along the last axis by the final `torch.cat(out, -1)`. -/
noncomputable def Mapping.forwardRow (bands : List ℚ) (x : List ℝ) : List ℝ :=
  match bands with
  | [] => []
  | f :: rest =>
      (x.map fun c => Real.sin ((f : ℝ) * c)) ++
        (x.map fun c => Real.cos ((f : ℝ) * c)) ++ Mapping.forwardRow rest x

/-- `Mapping.forward` on a whole (B, in_channels) batch: the elementwise
trigonometric functions and the last-axis concatenation act row by row. -/
noncomputable def Mapping.forward (bands : List ℚ) (x : List (List ℝ)) :
    List (List ℝ) :=
  x.map (Mapping.forwardRow bands)

lemma forwardRow_length (bands : List ℚ) (x : List ℝ) :
    (Mapping.forwardRow bands x).length = bands.length * (2 * x.length) := by
  induction bands with
  | nil => simp [Mapping.forwardRow]
  | cons f rest ih =>
      simp only [Mapping.forwardRow, List.length_append, List.length_map, ih,
        List.length_cons]
      ring

lemma pow2_natCast (n : ℕ) : pow2 (n : ℚ) = 2 ^ n := by
  simp [pow2, Rat.den_natCast, Rat.num_natCast, zpow_natCast]

lemma linspace_get (s e : ℚ) (steps : ℕ) (h2 : 2 ≤ steps) (k : ℕ)
    (hk : k < steps) :
    (linspace s e steps)[k]? = some (s + k * ((e - s) / ((steps : ℚ) - 1))) := by
  have hns : ¬ steps ≤ 1 := by omega
  rw [linspace, if_neg hns, List.getElem?_map, List.getElem?_range hk,
    Option.map_some']

lemma linspace_length (s e : ℚ) (steps : ℕ) :
    (linspace s e steps).length = steps := by
  unfold linspace
  split <;> rw [List.length_map, List.length_range]

lemma freq_bands_length (N : ℕ) (logscale : Bool) :
    (freq_bands N logscale).length = N := by
  unfold freq_bands
  cases logscale <;> simp [linspace_length]

lemma freq_bands_log_get (N : ℕ) (k : ℕ) (hk : k < N) :
    (freq_bands N true)[k]? = some ((2 : ℚ) ^ k) := by
  have hb : freq_bands N true = (linspace 0 ((N : ℚ) - 1) N).map pow2 := by
    simp [freq_bands]
  rw [hb, List.getElem?_map]
  rcases Nat.lt_or_ge N 2 with h2 | h2
  · interval_cases N
    · omega
    · interval_cases k
      simp [linspace, pow2]
  · have hcast : ((N : ℚ) - 1) ≠ 0 := by
      have h2q : (2 : ℚ) ≤ (N : ℚ) := by exact_mod_cast h2
      intro h
      nlinarith
    rw [linspace_get 0 ((N : ℚ) - 1) N h2 k hk]
    rw [Option.map_some']
    rw [show (0 : ℚ) + (k : ℚ) * (((N : ℚ) - 1 - 0) / ((N : ℚ) - 1)) = ((k : ℕ) : ℚ) by
      field_simp]
    rw [pow2_natCast]

lemma freq_bands_lin_get (N : ℕ) (h2 : 2 ≤ N) (k : ℕ) (hk : k < N) :
    (freq_bands N false)[k]? =
      some (1 + k * ((pow2 ((N : ℚ) - 1) - 1) / ((N : ℚ) - 1))) := by
  unfold freq_bands
  simp only [Bool.false_eq_true, if_false]
  exact linspace_get 1 (pow2 ((N : ℚ) - 1)) N h2 k hk

/-- Claim C2 (status: code_bug, evaluation at the failing input): with the
default xyz encoder parameters `num_freqs = 10, in_channels = 3`, the
attribute `out_channels` computed by `Mapping.__init__` is `3 * (2*10 + 1) =
63`, yet the actual `Mapping.forward` output row has width `3 * (2*10) = 60`
(the raw-input term `out = [x]` is commented out in the source), so the
attribute matches neither the forward output nor the spec's
`in_channels * (2*num_freqs)`. -/
theorem claim_C2_out_channels_bug :
    Mapping.out_channels 10 3 = 63 ∧
      (Mapping.forwardRow (freq_bands 10 true) [0, 0, 0]).length = 60 ∧
      Mapping.out_channels 10 3 ≠ 3 * (2 * 10) := by
  refine ⟨rfl, ?_, by decide⟩
  rw [forwardRow_length, freq_bands_length]
  simp

lemma getElem?_lt_length {α : Type} {l : List α} {n : ℕ} {a : α}
    (h : l[n]? = some a) : n < l.length := by
  rcases List.getElem?_eq_some_iff.mp h with ⟨hn, _⟩
  exact hn

lemma forwardRow_cons (g : ℚ) (rest : List ℚ) (x : List ℝ) :
    Mapping.forwardRow (g :: rest) x =
      (x.map fun c => Real.sin ((g : ℝ) * c)) ++
        ((x.map fun c => Real.cos ((g : ℝ) * c)) ++
          Mapping.forwardRow rest x) := by
  rw [Mapping.forwardRow, List.append_assoc]

lemma forwardRow_get (bands : List ℚ) :
    ∀ (k : ℕ) (f : ℚ) (x : List ℝ) (c : ℕ) (v : ℝ),
      bands[k]? = some f → x[c]? = some v →
      (Mapping.forwardRow bands x)[2 * k * x.length + c]? =
          some (Real.sin ((f : ℝ) * v)) ∧
      (Mapping.forwardRow bands x)[(2 * k + 1) * x.length + c]? =
          some (Real.cos ((f : ℝ) * v)) := by
  induction bands with
  | nil =>
      intro k f x c v hk _
      simp at hk
  | cons g rest ih =>
      intro k f x c v hk hc
      have hclt : c < x.length := getElem?_lt_length hc
      cases k with
      | zero =>
          simp only [List.getElem?_cons_zero, Option.some.injEq] at hk
          subst hk
          constructor
          · have hidx : 2 * 0 * x.length + c = c := by ring
            rw [hidx, forwardRow_cons,
              List.getElem?_append_left (by simpa using hclt),
              List.getElem?_map, hc, Option.map_some']
          · have hidx : (2 * 0 + 1) * x.length + c = x.length + c := by ring
            rw [hidx, forwardRow_cons,
              List.getElem?_append_right (by simp)]
            simp only [List.length_map, Nat.add_sub_cancel_left]
            rw [List.getElem?_append_left (by simpa using hclt),
              List.getElem?_map, hc, Option.map_some']
      | succ k =>
          simp only [List.getElem?_cons_succ] at hk
          have hrec := ih k f x c v hk hc
          constructor
          · have hidx : 2 * (k + 1) * x.length + c =
                x.length + (x.length + (2 * k * x.length + c)) := by ring
            rw [hidx, forwardRow_cons,
              List.getElem?_append_right (by simp)]
            simp only [List.length_map, Nat.add_sub_cancel_left]
            rw [List.getElem?_append_right (by simp)]
            simp only [List.length_map, Nat.add_sub_cancel_left]
            exact hrec.1
          · have hidx : (2 * (k + 1) + 1) * x.length + c =
                x.length + (x.length + ((2 * k + 1) * x.length + c)) := by ring
            rw [hidx, forwardRow_cons,
              List.getElem?_append_right (by simp)]
            simp only [List.length_map, Nat.add_sub_cancel_left]
            rw [List.getElem?_append_right (by simp)]
            simp only [List.length_map, Nat.add_sub_cancel_left]
            exact hrec.2

/-- Claim C1 (status: confirmed): for every Frequency Encoder with
`num_freqs >= 1` and `in_channels >= 1` and every (B, in_channels) batch, the
`Mapping.forward` output has B rows of width `in_channels * 2 * num_freqs`,
and the channel blocks follow exactly the iteration order of the source loops
(outer loop over the frequency bands, inner loop over (sin, cos)): block
number `2*k` holds `sin(band_k * x)` and block number `2*k + 1` holds
`cos(band_k * x)`, channel by channel. -/
theorem claim_C1_mapping_forward (N in_ch : ℕ) (logscale : Bool)
    (x : List (List ℝ)) (hN : 1 ≤ N) (hin : 1 ≤ in_ch)
    (hx : ∀ row ∈ x, row.length = in_ch) :
    (Mapping.forward (freq_bands N logscale) x).length = x.length ∧
    ∀ row ∈ x,
      (Mapping.forwardRow (freq_bands N logscale) row).length =
          in_ch * (2 * N) ∧
      ∀ (k c : ℕ) (f : ℚ) (v : ℝ),
        (freq_bands N logscale)[k]? = some f → row[c]? = some v →
        (Mapping.forwardRow (freq_bands N logscale) row)[2 * k * in_ch + c]? =
            some (Real.sin ((f : ℝ) * v)) ∧
        (Mapping.forwardRow (freq_bands N logscale) row)[(2 * k + 1) * in_ch + c]? =
            some (Real.cos ((f : ℝ) * v)) := by
  refine ⟨by simp [Mapping.forward], ?_⟩
  intro row hrow
  have hlen : row.length = in_ch := hx row hrow
  constructor
  · rw [forwardRow_length, freq_bands_length, hlen]
    ring
  · intro k c f v hk hc
    have := forwardRow_get (freq_bands N logscale) k f row c v hk hc
    rw [hlen] at this
    exact this

/-- Witness for C1 at `num_freqs = 1, in_channels = 1`, batch `[[0]]`. -/
theorem claim_C1_witness :
    (Mapping.forward (freq_bands 1 true) [[(0 : ℝ)]]).length = 1 :=
  (claim_C1_mapping_forward 1 1 true [[(0 : ℝ)]] (by norm_num) (by norm_num)
    (by simp)).1

lemma freq_bands_three_log : freq_bands 3 true = [1, 2, 4] := by
  apply List.ext_getElem?
  intro n
  rcases n with _ | _ | _ | n
  · rw [freq_bands_log_get 3 0 (by norm_num)]
    norm_num
  · rw [freq_bands_log_get 3 1 (by norm_num)]
    norm_num
  · rw [freq_bands_log_get 3 2 (by norm_num)]
    norm_num
  · rw [List.getElem?_eq_none (by rw [freq_bands_length]; omega),
      List.getElem?_eq_none (by simp)]

lemma pow2_two : pow2 (((3 : ℕ) : ℚ) - 1) = 4 := by
  rw [show (((3 : ℕ) : ℚ) - 1) = ((2 : ℕ) : ℚ) by norm_num, pow2_natCast]
  norm_num

lemma freq_bands_three_lin : freq_bands 3 false = [1, 5/2, 4] := by
  apply List.ext_getElem?
  intro n
  rcases n with _ | _ | _ | n
  · rw [freq_bands_lin_get 3 (by norm_num) 0 (by norm_num), pow2_two]
    norm_num
  · rw [freq_bands_lin_get 3 (by norm_num) 1 (by norm_num), pow2_two]
    norm_num
  · rw [freq_bands_lin_get 3 (by norm_num) 2 (by norm_num), pow2_two]
    norm_num
  · rw [List.getElem?_eq_none (by rw [freq_bands_length]; omega),
      List.getElem?_eq_none (by simp)]

/-- Claim C3 (status: confirmed): for `num_freqs >= 1` the frequency bands
are, in log-scale mode, `band[k] = 2^k` for `k = 0 .. num_freqs - 1`, and in
linear mode, `num_freqs` values linearly spaced (constant consecutive
difference) from 1 to `2^(num_freqs-1)`; in particular `num_freqs = 3` yields
`[1, 2, 4]` (log) and `[1, 5/2, 4]` (linear).  The bands are a pure function
of the constructor arguments, fixed at construction. -/
theorem claim_C3_freq_bands (N : ℕ) (hN : 1 ≤ N) :
    ((freq_bands N true).length = N ∧
      ∀ k, k < N → (freq_bands N true)[k]? = some ((2 : ℚ) ^ k)) ∧
    ((freq_bands N false).length = N ∧
      (freq_bands N false)[0]? = some 1 ∧
      (freq_bands N false)[N - 1]? = some ((2 : ℚ) ^ (N - 1)) ∧
      ∀ k, k + 1 < N → ∀ a b,
        (freq_bands N false)[k]? = some a →
        (freq_bands N false)[k + 1]? = some b →
        b - a = ((2 : ℚ) ^ (N - 1) - 1) / ((N : ℚ) - 1)) ∧
    freq_bands 3 true = [1, 2, 4] ∧
    freq_bands 3 false = [1, 5/2, 4] := by
  have hpow : pow2 ((N : ℚ) - 1) = (2 : ℚ) ^ (N - 1) := by
    rw [show ((N : ℚ) - 1) = ((N - 1 : ℕ) : ℚ) by
      push_cast [Nat.cast_sub hN]
      ring]
    exact pow2_natCast (N - 1)
  refine ⟨⟨freq_bands_length N true, fun k hk => freq_bands_log_get N k hk⟩,
    ⟨freq_bands_length N false, ?_, ?_, ?_⟩, freq_bands_three_log,
    freq_bands_three_lin⟩
  · rcases Nat.lt_or_ge N 2 with h2 | h2
    · have hN1 : N = 1 := by omega
      subst hN1
      simp [freq_bands, linspace]
    · rw [freq_bands_lin_get N h2 0 (by omega)]
      norm_num
  · rcases Nat.lt_or_ge N 2 with h2 | h2
    · have hN1 : N = 1 := by omega
      subst hN1
      simp [freq_bands, linspace]
    · have hne : ((N : ℚ) - 1) ≠ 0 := by
        have h2q : (2 : ℚ) ≤ (N : ℚ) := by exact_mod_cast h2
        intro h
        nlinarith
      rw [freq_bands_lin_get N h2 (N - 1) (by omega), hpow]
      congr 1
      have hcast : ((N - 1 : ℕ) : ℚ) = (N : ℚ) - 1 := by
        push_cast [Nat.cast_sub hN]
        ring
      rw [hcast]
      field_simp
  · intro k hk a b ha hb
    have h2 : 2 ≤ N := by omega
    rw [freq_bands_lin_get N h2 k (by omega)] at ha
    rw [freq_bands_lin_get N h2 (k + 1) (by omega)] at hb
    rw [hpow] at ha hb
    injection ha with ha
    injection hb with hb
    rw [← ha, ← hb]
    push_cast
    ring

/-- Witness for C3 at `num_freqs = 3`: the two concrete band lists. -/
theorem claim_C3_witness :
    freq_bands 3 true = [1, 2, 4] ∧ freq_bands 3 false = [1, 5/2, 4] :=
  (claim_C3_freq_bands 3 (by norm_num)).2.2

/-! ### torch.nn.Linear and the NeRF network -/

/-- A `torch.nn.Linear(in_features, out_features)` instance: the declared
input width, the weight matrix as a list of `out_features` rows of
`in_features` entries each, and the bias vector. -/
structure Lin where
  inF : ℕ
  W : List (List ℝ)
  b : List ℝ

/-- Dot product of a weight row with the input vector. -/
noncomputable def dot (r v : List ℝ) : ℝ :=
  (List.zipWith (fun a b => a * b) r v).sum

/-- Applying a Linear layer to one row: torch checks the input width against
`in_features` and raises a shape error on mismatch (embedded as `none`). -/
noncomputable def Lin.apply (l : Lin) (v : List ℝ) : Option (List ℝ) :=
  if v.length = l.inF then
    some (List.zipWith (fun r bi => dot r v + bi) l.W l.b)
  else none

/-- The layer has the shapes `torch.nn.Linear(i, o)` would allocate. -/
def Lin.WF (l : Lin) (i o : ℕ) : Prop :=
  l.inF = i ∧ l.W.length = o ∧ l.b.length = o ∧ ∀ r ∈ l.W, r.length = i

/-- The constructor arguments of `NeRF.__init__` (src/models.py lines
58-63). -/
structure Config where
  layers : ℕ
  feat : ℕ
  input_sizes : ℕ × ℕ
  skips : List ℕ
  siren : Bool
  mapping : Bool
  mapping_sizes : ℕ × ℕ

/-- `NeRF.__init__` lines 84-89: the effective encoded input widths,
`in_size = [2 * map_sz * in_sz, ...]` when positional encoding is on, the raw
`input_sizes` otherwise (the Siren substitute encoder is elementwise). -/
def in_size (cfg : Config) : ℕ × ℕ :=
  if cfg.mapping then
    (2 * cfg.mapping_sizes.1 * cfg.input_sizes.1,
      2 * cfg.mapping_sizes.2 * cfg.input_sizes.2)
  else cfg.input_sizes

/-- `NeRF.__init__` lines 92-101: the (in_features, out_features) shapes of
the trunk (`fc_net`) linear layers, built by appending
`Linear(in_size[0], feat)` and then, for `i in range(1, layers)`,
`Linear(feat + in_size[0], feat)` if `i in skips` else `Linear(feat, feat)`. -/
def fc_shapes (cfg : Config) : List (ℕ × ℕ) :=
  (List.range' 1 (cfg.layers - 1)).foldl
    (fun acc i =>
      acc ++ [if i ∈ cfg.skips then (cfg.feat + (in_size cfg).1, cfg.feat)
        else (cfg.feat, cfg.feat)])
    [((in_size cfg).1, cfg.feat)]

/-- The learnable parameters of a constructed `NeRF`: the trunk linears
(`fc_net`, activations carry no parameters), the density head
`sigma_from_xyz`, the feature head `feats_from_xyz`, and the two linears of
the color head `rgb_from_xyzdir`. -/
structure Params where
  fc : List Lin
  sigma_from_xyz : Lin
  feats_from_xyz : Lin
  rgb_from_xyzdir1 : Lin
  rgb_from_xyzdir2 : Lin

/-- The parameters have exactly the shapes `NeRF.__init__` allocates
(lines 92-112): trunk shapes `fc_shapes`, `Linear(feat, 1)` for sigma,
`Linear(feat, feat)` for features, `Linear(feat + in_size[1], feat // 2)` and
`Linear(feat // 2, 3)` for color. -/
def WF (cfg : Config) (p : Params) : Prop :=
  List.Forall₂ (fun l s => Lin.WF l s.1 s.2) p.fc (fc_shapes cfg) ∧
  Lin.WF p.sigma_from_xyz cfg.feat 1 ∧
  Lin.WF p.feats_from_xyz cfg.feat cfg.feat ∧
  Lin.WF p.rgb_from_xyzdir1 (cfg.feat + (in_size cfg).2) (cfg.feat / 2) ∧
  Lin.WF p.rgb_from_xyzdir2 (cfg.feat / 2) 3

/-- The `Siren` activation, `sin(30 * x)` elementwise (lines 10-18). -/
noncomputable def sirenFn (t : ℝ) : ℝ :=
  Real.sin (30 * t)

/-- `torch.nn.ReLU()` elementwise. -/
noncomputable def reluFn (t : ℝ) : ℝ :=
  max t 0

/-- `nn.Softplus()` elementwise, `log(1 + exp x)`. -/
noncomputable def softplusFn (t : ℝ) : ℝ :=
  Real.log (1 + Real.exp t)

/-- `torch.nn.Sigmoid()` elementwise, `1 / (1 + exp(-x))`. -/
noncomputable def sigmoidFn (t : ℝ) : ℝ :=
  1 / (1 + Real.exp (-t))

/-- Line 81: `nl = Siren() if siren else torch.nn.ReLU()`. -/
noncomputable def nl (cfg : Config) : ℝ → ℝ :=
  if cfg.siren then sirenFn else reluFn

/-- Lines 85-89: the xyz branch encoder `self.mapping[0]`, a
`Mapping(mapping_sizes[0], input_sizes[0])` (logscale default) when mapping is
on, else a `Siren()` applied to the raw input. -/
noncomputable def encode0 (cfg : Config) (v : List ℝ) : List ℝ :=
  if cfg.mapping then Mapping.forwardRow (freq_bands cfg.mapping_sizes.1 true) v
  else v.map sirenFn

/-- Lines 85-89: the direction branch encoder `self.mapping[1]`. -/
noncomputable def encode1 (cfg : Config) (v : List ℝ) : List ℝ :=
  if cfg.mapping then Mapping.forwardRow (freq_bands cfg.mapping_sizes.2 true) v
  else v.map sirenFn

/-- Lines 129-132 of `NeRF.forward`, per row: when color is requested and the
model has a direction input, `torch.split(x, input_sizes, -1)` (which raises
when the sizes do not sum to the row width, embedded as `none`) overwrites
`input_dir`; otherwise the whole row is the xyz input and the `input_dir`
argument is kept (it is never read in that case further down). -/
def splitInput (cfg : Config) (x : List ℝ) (input_dir : Option (List ℝ))
    (sigma_only : Bool) : Option (List ℝ × Option (List ℝ)) :=
  if sigma_only = false ∧ 0 < cfg.input_sizes.2 then
    if x.length = cfg.input_sizes.1 + cfg.input_sizes.2 then
      some (x.take cfg.input_sizes.1, some (x.drop cfg.input_sizes.1))
    else none
  else some (x, input_dir)

/-- Lines 137-141 of `NeRF.forward`: the trunk loop
`for i in range(self.layers)`, concatenating the encoded xyz in front of the
running activation when `i in self.skips`, then applying `fc_net[2*i]`
(a Linear, with index lookup failure and shape failure as `none`) and
`fc_net[2*i+1]` (the activation).  The counter pair (i, n) walks index `i`
with `n` layers still to run. -/
noncomputable def trunkGo (cfg : Config) (fcl : List Lin) (enc : List ℝ) :
    ℕ → ℕ → List ℝ → Option (List ℝ)
  | _, 0, h => some h
  | i, n + 1, h =>
      match fcl[i]? with
      | none => none
      | some l =>
          match l.apply (if i ∈ cfg.skips then enc ++ h else h) with
          | none => none
          | some y => trunkGo cfg fcl enc (i + 1) n (y.map (nl cfg))

/-- Lines 149-155 of `NeRF.forward`: the color head.  Feature head
`feats_from_xyz` on the shared features, concatenation with the encoded
direction when `input_sizes[1] > 0` (a missing direction there is a Python
`TypeError`, embedded as `none`), then the two `rgb_from_xyzdir` linears with
the activation between and the final Sigmoid. -/
noncomputable def colorRow (cfg : Config) (p : Params) (shared : List ℝ)
    (dir : Option (List ℝ)) : Option (List ℝ) :=
  match p.feats_from_xyz.apply shared with
  | none => none
  | some f0 =>
      let feats := f0.map (nl cfg)
      match (if 0 < cfg.input_sizes.2 then
          match dir with
          | some d => some (feats ++ encode1 cfg d)
          | none => none
        else some feats) with
      | none => none
      | some xd =>
          match p.rgb_from_xyzdir1.apply xd with
          | none => none
          | some r1 =>
              match p.rgb_from_xyzdir2.apply (r1.map (nl cfg)) with
              | none => none
              | some r2 => some (r2.map sigmoidFn)

/-- `NeRF.forward` (lines 114-158) on one row of the batch: split, encode
xyz, run the trunk, density head (`sigma_from_xyz` then Softplus); if
`sigma_only` return sigma, else run the color head and return
`cat([rgb, sigma], -1)`. -/
noncomputable def rowForward (cfg : Config) (p : Params) (x : List ℝ)
    (input_dir : Option (List ℝ)) (sigma_only : Bool) : Option (List ℝ) :=
  match splitInput cfg x input_dir sigma_only with
  | none => none
  | some (input_xyz, dir) =>
      let enc := encode0 cfg input_xyz
      match trunkGo cfg p.fc enc 0 cfg.layers enc with
      | none => none
      | some shared =>
          match p.sigma_from_xyz.apply shared with
          | none => none
          | some s0 =>
              let sigma := s0.map softplusFn
              if sigma_only = true then some sigma
              else
                match colorRow cfg p shared dir with
                | none => none
                | some rgb => some (rgb ++ sigma)

/-- Applying a fallible row operation to every row of a batch: any row
failure fails the whole tensor operation, as in torch. -/
noncomputable def mapRows (f : List ℝ → Option (List ℝ)) :
    List (List ℝ) → Option (List (List ℝ))
  | [] => some []
  | r :: rs =>
      match f r, mapRows f rs with
      | some y, some ys => some (y :: ys)
      | _, _ => none

/-- `NeRF.forward` on a whole (B, ·) batch: row by row.  The `input_dir`
argument is dropped here: whenever the source would read it (color requested
and `input_sizes[1] > 0`), line 130 has already overwritten it with the split
result, so it never influences the output. -/
noncomputable def forward (cfg : Config) (p : Params) (x : List (List ℝ))
    (sigma_only : Bool) : Option (List (List ℝ)) :=
  mapRows (fun row => rowForward cfg p row none sigma_only) x

/-- A concrete all-zero `Linear(i, o)`, used to instantiate witnesses. -/
noncomputable def zeroLin (i o : ℕ) : Lin :=
  ⟨i, List.replicate o (List.replicate i 0), List.replicate o 0⟩

lemma zeroLin_WF (i o : ℕ) : (zeroLin i o).WF i o := by
  refine ⟨rfl, by simp [zeroLin], by simp [zeroLin], ?_⟩
  intro r hr
  rw [List.eq_of_mem_replicate hr]
  simp

/-- The density path of `NeRF.forward` (lines 134-145) as a function of the
xyz part alone: encode, trunk, `sigma_from_xyz`, Softplus. -/
noncomputable def sigmaRow (cfg : Config) (p : Params) (input_xyz : List ℝ) :
    Option (List ℝ) :=
  match trunkGo cfg p.fc (encode0 cfg input_xyz) 0 cfg.layers
      (encode0 cfg input_xyz) with
  | none => none
  | some shared =>
      match p.sigma_from_xyz.apply shared with
      | none => none
      | some s0 => some (s0.map softplusFn)

/-! ### Machinery lemmas -/

lemma Lin.apply_sound {l : Lin} {i o : ℕ} (hw : l.WF i o) {v : List ℝ}
    (hv : v.length = i) :
    ∃ y, l.apply v = some y ∧ y.length = o := by
  refine ⟨List.zipWith (fun r bi => dot r v + bi) l.W l.b, ?_, ?_⟩
  · unfold Lin.apply
    rw [if_pos (by rw [hv, hw.1])]
  · rw [List.length_zipWith, hw.2.1, hw.2.2.1]
    exact Nat.min_self o

lemma Lin.apply_bad {l : Lin} {v : List ℝ} (hv : v.length ≠ l.inF) :
    l.apply v = none := by
  unfold Lin.apply
  rw [if_neg hv]

lemma forall₂_getElem {α β : Type} {R : α → β → Prop} :
    ∀ {l1 : List α} {l2 : List β}, List.Forall₂ R l1 l2 →
      ∀ {i : ℕ} {s : β}, l2[i]? = some s → ∃ a, l1[i]? = some a ∧ R a s := by
  intro l1 l2 h
  induction h with
  | nil =>
      intro i s hs
      simp at hs
  | cons hab htl ih =>
      intro i s hs
      cases i with
      | zero =>
          simp only [List.getElem?_cons_zero, Option.some.injEq] at hs
          subst hs
          exact ⟨_, by simp, hab⟩
      | succ i =>
          simp only [List.getElem?_cons_succ] at hs ⊢
          exact ih hs

lemma encode0_length (cfg : Config) (v : List ℝ) :
    (encode0 cfg v).length =
      if cfg.mapping then 2 * cfg.mapping_sizes.1 * v.length else v.length := by
  cases hm : cfg.mapping with
  | false => simp [encode0, hm]
  | true =>
      simp only [encode0, hm, if_true, forwardRow_length, freq_bands_length]
      ring

lemma encode0_in_size (cfg : Config) (v : List ℝ)
    (hv : v.length = cfg.input_sizes.1) :
    (encode0 cfg v).length = (in_size cfg).1 := by
  rw [encode0_length, in_size]
  cases hm : cfg.mapping <;> simp [hv]

lemma encode1_in_size (cfg : Config) (v : List ℝ)
    (hv : v.length = cfg.input_sizes.2) :
    (encode1 cfg v).length = (in_size cfg).2 := by
  cases hm : cfg.mapping with
  | false => simp [encode1, in_size, hm, hv]
  | true =>
      simp only [encode1, in_size, hm, if_true, forwardRow_length,
        freq_bands_length, hv]
      ring

lemma in_size2_zero (cfg : Config) (h : cfg.input_sizes.2 = 0) :
    (in_size cfg).2 = 0 := by
  rw [in_size]
  cases cfg.mapping <;> simp [h]

lemma foldl_append_map {α β : Type} (g : α → β) :
    ∀ (l : List α) (init : List β),
      l.foldl (fun acc i => acc ++ [g i]) init = init ++ l.map g := by
  intro l
  induction l with
  | nil => intro init; simp
  | cons a l ih =>
      intro init
      rw [List.foldl_cons, ih, List.map_cons]
      simp

lemma fc_shapes_eq (cfg : Config) :
    fc_shapes cfg = ((in_size cfg).1, cfg.feat) ::
      (List.range' 1 (cfg.layers - 1)).map
        (fun i => if i ∈ cfg.skips then (cfg.feat + (in_size cfg).1, cfg.feat)
          else (cfg.feat, cfg.feat)) := by
  unfold fc_shapes
  rw [foldl_append_map]
  rfl

lemma fc_shapes_length (cfg : Config) :
    (fc_shapes cfg).length = 1 + (cfg.layers - 1) := by
  rw [fc_shapes_eq]
  simp
  omega

lemma fc_shapes_get_zero (cfg : Config) :
    (fc_shapes cfg)[0]? = some ((in_size cfg).1, cfg.feat) := by
  rw [fc_shapes_eq]
  simp

lemma fc_shapes_get_succ (cfg : Config) (i : ℕ) (h1 : 1 ≤ i)
    (h2 : i < cfg.layers) :
    (fc_shapes cfg)[i]? =
      some (if i ∈ cfg.skips then (cfg.feat + (in_size cfg).1, cfg.feat)
        else (cfg.feat, cfg.feat)) := by
  rw [fc_shapes_eq]
  cases i with
  | zero => omega
  | succ j =>
      rw [List.getElem?_cons_succ, List.getElem?_map,
        List.getElem?_range' 1 1 (show j < cfg.layers - 1 by omega),
        Option.map_some']
      rw [show 1 + 1 * j = j + 1 by omega]

lemma trunkGo_sound (cfg : Config) (fcl : List Lin) (enc : List ℝ)
    (h0 : 0 ∉ cfg.skips)
    (hfc : List.Forall₂ (fun l s => Lin.WF l s.1 s.2) fcl (fc_shapes cfg))
    (henc : enc.length = (in_size cfg).1) :
    ∀ (n i : ℕ) (h : List ℝ), i + n = cfg.layers →
      h.length = (if i = 0 then (in_size cfg).1 else cfg.feat) →
      ∃ h2, trunkGo cfg fcl enc i n h = some h2 ∧
        h2.length = (if n = 0 then h.length else cfg.feat) := by
  intro n
  induction n with
  | zero =>
      intro i h _ _
      exact ⟨h, rfl, by simp [trunkGo]⟩
  | succ n ih =>
      intro i h hin hlen
      have hshape : (fc_shapes cfg)[i]? =
          some ((if i = 0 then (in_size cfg).1
            else if i ∈ cfg.skips then cfg.feat + (in_size cfg).1
            else cfg.feat), cfg.feat) := by
        cases i with
        | zero => simpa using fc_shapes_get_zero cfg
        | succ j =>
            rw [fc_shapes_get_succ cfg (j + 1) (by omega) (by omega)]
            by_cases hsk : (j + 1) ∈ cfg.skips <;> simp [hsk]
      obtain ⟨l, hl, hWFl⟩ := forall₂_getElem hfc hshape
      have hWFl2 : l.WF (if i = 0 then (in_size cfg).1
          else if i ∈ cfg.skips then cfg.feat + (in_size cfg).1 else cfg.feat)
          cfg.feat := hWFl
      have hglen : (if i ∈ cfg.skips then enc ++ h else h).length =
          (if i = 0 then (in_size cfg).1
            else if i ∈ cfg.skips then cfg.feat + (in_size cfg).1
            else cfg.feat) := by
        by_cases hi : i = 0
        · subst hi
          rw [if_neg h0, if_pos rfl]
          simpa using hlen
        · rw [if_neg hi]
          rw [if_neg hi] at hlen
          by_cases hsk : i ∈ cfg.skips
          · rw [if_pos hsk, if_pos hsk, List.length_append, henc, hlen]
            omega
          · rw [if_neg hsk, if_neg hsk]
            exact hlen
      obtain ⟨y, hy, hylen⟩ := Lin.apply_sound hWFl2 hglen
      obtain ⟨h2, hh2, hh2len⟩ :=
        ih (i + 1) (y.map (nl cfg)) (by omega)
          (by simp [hylen])
      refine ⟨h2, ?_, ?_⟩
      · simp only [trunkGo, hl, hy]
        exact hh2
      · rw [hh2len, if_neg (Nat.succ_ne_zero n)]
        rcases Nat.eq_zero_or_pos n with hn0 | hnp
        · subst hn0
          simp [hylen]
        · have hne : n ≠ 0 := by omega
          simp [hne]

lemma softplusFn_pos (t : ℝ) : 0 < softplusFn t := by
  unfold softplusFn
  apply Real.log_pos
  linarith [Real.exp_pos t]

lemma sigmoidFn_pos (t : ℝ) : 0 < sigmoidFn t := by
  unfold sigmoidFn
  positivity

lemma sigmoidFn_lt_one (t : ℝ) : sigmoidFn t < 1 := by
  unfold sigmoidFn
  rw [div_lt_one (by positivity)]
  linarith [Real.exp_pos (-t)]

lemma splitInput_sigma (cfg : Config) (x : List ℝ) (d : Option (List ℝ)) :
    splitInput cfg x d true = some (x, d) := by
  unfold splitInput
  simp

lemma splitInput_color_pos (cfg : Config) (x : List ℝ) (d : Option (List ℝ))
    (hs2 : 0 < cfg.input_sizes.2)
    (hx : x.length = cfg.input_sizes.1 + cfg.input_sizes.2) :
    splitInput cfg x d false =
      some (x.take cfg.input_sizes.1, some (x.drop cfg.input_sizes.1)) := by
  unfold splitInput
  rw [if_pos ⟨rfl, hs2⟩, if_pos hx]

lemma splitInput_color_zero (cfg : Config) (x : List ℝ) (d : Option (List ℝ))
    (hs2 : cfg.input_sizes.2 = 0) :
    splitInput cfg x d false = some (x, d) := by
  unfold splitInput
  rw [if_neg (by simp [hs2])]

lemma splitInput_color_bad (cfg : Config) (x : List ℝ) (d : Option (List ℝ))
    (hs2 : 0 < cfg.input_sizes.2)
    (hx : x.length ≠ cfg.input_sizes.1 + cfg.input_sizes.2) :
    splitInput cfg x d false = none := by
  unfold splitInput
  rw [if_pos ⟨rfl, hs2⟩, if_neg hx]

lemma density_path (cfg : Config) (p : Params) (xyz : List ℝ)
    (h0 : 0 ∉ cfg.skips) (hWF : WF cfg p) (hL : 1 ≤ cfg.layers)
    (hxyz : xyz.length = cfg.input_sizes.1) :
    ∃ shared s0,
      trunkGo cfg p.fc (encode0 cfg xyz) 0 cfg.layers (encode0 cfg xyz) =
          some shared ∧
      shared.length = cfg.feat ∧
      p.sigma_from_xyz.apply shared = some s0 ∧
      (s0.map softplusFn).length = 1 ∧
      (∀ v ∈ s0.map softplusFn, 0 < v) ∧
      sigmaRow cfg p xyz = some (s0.map softplusFn) := by
  have henc := encode0_in_size cfg xyz hxyz
  obtain ⟨shared, hsh, hshlen⟩ :=
    trunkGo_sound cfg p.fc (encode0 cfg xyz) h0 hWF.1 henc cfg.layers 0
      (encode0 cfg xyz) (by omega) (by simp [henc])
  have hshf : shared.length = cfg.feat := by
    rw [hshlen, if_neg (by omega)]
  obtain ⟨s0, hs0, hs0len⟩ := Lin.apply_sound hWF.2.1 hshf
  refine ⟨shared, s0, hsh, hshf, hs0, by simp [hs0len], ?_, ?_⟩
  · intro v hv
    rcases List.mem_map.mp hv with ⟨t, _, rfl⟩
    exact softplusFn_pos t
  · simp only [sigmaRow, hsh, hs0]

lemma colorRow_sound (cfg : Config) (p : Params) (shared : List ℝ)
    (dir : Option (List ℝ)) (hWF : WF cfg p) (hsh : shared.length = cfg.feat)
    (hdir : 0 < cfg.input_sizes.2 →
      ∃ dl, dir = some dl ∧ dl.length = cfg.input_sizes.2) :
    ∃ rgb, colorRow cfg p shared dir = some rgb ∧ rgb.length = 3 ∧
      ∀ v ∈ rgb, 0 < v ∧ v < 1 := by
  obtain ⟨f0, hf0, hf0len⟩ := Lin.apply_sound hWF.2.2.1 hsh
  have hxd : ∃ xd, (if 0 < cfg.input_sizes.2 then
      match dir with
      | some d => some ((f0.map (nl cfg)) ++ encode1 cfg d)
      | none => none
      else some (f0.map (nl cfg))) = some xd ∧
      xd.length = cfg.feat + (in_size cfg).2 := by
    rcases Nat.eq_zero_or_pos cfg.input_sizes.2 with hs2 | hs2
    · refine ⟨f0.map (nl cfg), ?_, ?_⟩
      · rw [if_neg (by omega)]
      · rw [in_size2_zero cfg hs2]
        simp [hf0len]
    · obtain ⟨dl, hdl, hdllen⟩ := hdir hs2
      refine ⟨f0.map (nl cfg) ++ encode1 cfg dl, ?_, ?_⟩
      · rw [if_pos hs2, hdl]
      · rw [List.length_append, List.length_map, hf0len,
          encode1_in_size cfg dl hdllen]
  obtain ⟨xd, hxdeq, hxdlen⟩ := hxd
  obtain ⟨r1, hr1, hr1len⟩ := Lin.apply_sound hWF.2.2.2.1 hxdlen
  obtain ⟨r2, hr2, hr2len⟩ :=
    Lin.apply_sound hWF.2.2.2.2 (v := r1.map (nl cfg)) (by simp [hr1len])
  refine ⟨r2.map sigmoidFn, ?_, by simp [hr2len], ?_⟩
  · simp only [colorRow, hf0, hxdeq, hr1, hr2]
  · intro v hv
    rcases List.mem_map.mp hv with ⟨t, _, rfl⟩
    exact ⟨sigmoidFn_pos t, sigmoidFn_lt_one t⟩

lemma rowForward_sigma_sound (cfg : Config) (p : Params) (x : List ℝ)
    (d : Option (List ℝ)) (h0 : 0 ∉ cfg.skips) (hWF : WF cfg p)
    (hL : 1 ≤ cfg.layers) (hx : x.length = cfg.input_sizes.1) :
    ∃ sig, rowForward cfg p x d true = some sig ∧
      sigmaRow cfg p x = some sig ∧ sig.length = 1 ∧ ∀ v ∈ sig, 0 < v := by
  obtain ⟨shared, s0, hsh, hshf, hs0, hlen1, hpos, hsig⟩ :=
    density_path cfg p x h0 hWF hL hx
  refine ⟨s0.map softplusFn, ?_, hsig, hlen1, hpos⟩
  simp only [rowForward, splitInput_sigma, hsh, hs0]
  rfl

lemma rowForward_color_sound (cfg : Config) (p : Params) (x : List ℝ)
    (d : Option (List ℝ)) (h0 : 0 ∉ cfg.skips) (hWF : WF cfg p)
    (hL : 1 ≤ cfg.layers)
    (hx : x.length = cfg.input_sizes.1 + cfg.input_sizes.2) :
    ∃ rgb sig, rowForward cfg p x d false = some (rgb ++ sig) ∧
      rgb.length = 3 ∧ (∀ v ∈ rgb, 0 < v ∧ v < 1) ∧
      sigmaRow cfg p (x.take cfg.input_sizes.1) = some sig ∧
      sig.length = 1 ∧ ∀ v ∈ sig, 0 < v := by
  have htake : (x.take cfg.input_sizes.1).length = cfg.input_sizes.1 := by
    rw [List.length_take, hx]
    omega
  obtain ⟨shared, s0, hsh, hshf, hs0, hlen1, hpos, hsig⟩ :=
    density_path cfg p (x.take cfg.input_sizes.1) h0 hWF hL htake
  rcases Nat.eq_zero_or_pos cfg.input_sizes.2 with hs2 | hs2
  · have hxall : x.take cfg.input_sizes.1 = x := by
      apply List.take_of_length_le
      omega
    obtain ⟨rgb, hrgb, hrgb3, hrgbmem⟩ :=
      colorRow_sound cfg p shared d hWF hshf (by omega)
    refine ⟨rgb, s0.map softplusFn, ?_, hrgb3, hrgbmem, hsig, hlen1, hpos⟩
    rw [hxall] at hsh
    simp only [rowForward, splitInput_color_zero cfg x d hs2, hsh, hs0, hrgb]
    rfl
  · obtain ⟨rgb, hrgb, hrgb3, hrgbmem⟩ :=
      colorRow_sound cfg p shared (some (x.drop cfg.input_sizes.1)) hWF hshf
        (fun _ => ⟨x.drop cfg.input_sizes.1, rfl, by
          rw [List.length_drop, hx]
          omega⟩)
    refine ⟨rgb, s0.map softplusFn, ?_, hrgb3, hrgbmem, hsig, hlen1, hpos⟩
    simp only [rowForward, splitInput_color_pos cfg x d hs2 hx, hsh, hs0, hrgb]
    rfl

lemma mapRows_sound {f : List ℝ → Option (List ℝ)} {P : List ℝ → Prop} :
    ∀ {rs : List (List ℝ)}, (∀ r ∈ rs, ∃ y, f r = some y ∧ P y) →
      ∃ out, mapRows f rs = some out ∧ out.length = rs.length ∧
        ∀ y ∈ out, P y := by
  intro rs
  induction rs with
  | nil => intro _; exact ⟨[], rfl, rfl, by simp⟩
  | cons r rs ih =>
      intro hall
      obtain ⟨y, hy, hPy⟩ := hall r (by simp)
      obtain ⟨out, hout, houtlen, houtP⟩ :=
        ih (fun r2 hr2 => hall r2 (by simp [hr2]))
      refine ⟨y :: out, ?_, by simp [houtlen], ?_⟩
      · simp only [mapRows, hy, hout]
      · intro z hz
        rcases List.mem_cons.mp hz with hz1 | hz2
        · subst hz1
          exact hPy
        · exact houtP z hz2

lemma rowForward_bad_width (cfg : Config) (p : Params) (x : List ℝ)
    (d : Option (List ℝ)) (sigma_only : Bool)
    (h0 : 0 ∉ cfg.skips) (hL : 1 ≤ cfg.layers) (hWF : WF cfg p)
    (hm : cfg.mapping = true → 1 ≤ cfg.mapping_sizes.1)
    (hx : x.length ≠ (if sigma_only = false ∧ 0 < cfg.input_sizes.2
      then cfg.input_sizes.1 + cfg.input_sizes.2 else cfg.input_sizes.1)) :
    rowForward cfg p x d sigma_only = none := by
  by_cases hcond : sigma_only = false ∧ 0 < cfg.input_sizes.2
  · rw [if_pos hcond] at hx
    obtain ⟨hso, hs2⟩ := hcond
    subst hso
    simp only [rowForward, splitInput_color_bad cfg x d hs2 hx]
  · rw [if_neg hcond] at hx
    have hsplit : splitInput cfg x d sigma_only = some (x, d) := by
      unfold splitInput
      rw [if_neg hcond]
    have henc : (encode0 cfg x).length ≠ (in_size cfg).1 := by
      rw [encode0_length, in_size]
      cases hmap : cfg.mapping with
      | false => simpa using hx
      | true =>
          simp only [if_true]
          intro heq
          apply hx
          have hm1 : 0 < 2 * cfg.mapping_sizes.1 := by
            have := hm hmap
            omega
          exact Nat.eq_of_mul_eq_mul_left hm1 heq
    obtain ⟨l, hl, hWFl⟩ := forall₂_getElem hWF.1 (fc_shapes_get_zero cfg)
    have hWFl2 : l.WF (in_size cfg).1 cfg.feat := hWFl
    have happ : l.apply (if 0 ∈ cfg.skips then
        encode0 cfg x ++ encode0 cfg x else encode0 cfg x) = none := by
      rw [if_neg h0]
      apply Lin.apply_bad
      rw [hWFl2.1]
      exact henc
    obtain ⟨n, hn⟩ : ∃ n, cfg.layers = n + 1 := ⟨cfg.layers - 1, by omega⟩
    simp only [rowForward, hsplit, hn, trunkGo, hl, happ]

/-- Claim C5 (status: confirmed): for every model whose skips all lie in
`[1, layers)`, trunk layer 0 maps the effective encoded-xyz width
`in_size[0]` to `feat`, and every trunk layer `i` in `[1, layers)` maps
`feat` to `feat` unless `i ∈ skips`, in which case it maps
`feat + in_size[0]` to `feat`; and at forward time the trunk loop, which
prefixes the encoded xyz features before each skip layer's linear transform
(`trunkGo`), is width-consistent: a density-only forward pass on a well-shaped
row succeeds. -/
theorem claim_C5_trunk_shapes (cfg : Config) (p : Params) (x : List ℝ)
    (hskips : ∀ s ∈ cfg.skips, 1 ≤ s ∧ s < cfg.layers) (hL : 1 ≤ cfg.layers)
    (hWF : WF cfg p) (hx : x.length = cfg.input_sizes.1) :
    ((fc_shapes cfg).length = cfg.layers ∧
      (fc_shapes cfg)[0]? = some ((in_size cfg).1, cfg.feat) ∧
      ∀ i, 1 ≤ i → i < cfg.layers →
        (fc_shapes cfg)[i]? =
          some (if i ∈ cfg.skips then (cfg.feat + (in_size cfg).1, cfg.feat)
            else (cfg.feat, cfg.feat))) ∧
    (rowForward cfg p x none true).isSome = true := by
  have h0 : 0 ∉ cfg.skips := fun hmem => by
    have := hskips 0 hmem
    omega
  refine ⟨⟨by rw [fc_shapes_length]; omega, fc_shapes_get_zero cfg,
    fun i h1 h2 => fc_shapes_get_succ cfg i h1 h2⟩, ?_⟩
  obtain ⟨sig, hfwd, _⟩ := rowForward_sigma_sound cfg p x none h0 hWF hL hx
  rw [hfwd]
  rfl

/-- Claim C6 (status: confirmed): for every well-configured model and every
well-shaped batch of B rows, forward with `sigma_only=True` returns a (B, 1)
tensor with all entries `>= 0` (in fact `> 0`, Softplus), and forward with
`sigma_only=False` returns a (B, 4) tensor laid out `[r, g, b, sigma]`:
columns 0-2 lie in the open interval (0, 1) (Sigmoid) and column 3 is
`>= 0`. -/
theorem claim_C6_output_ranges (cfg : Config) (p : Params) (x : List (List ℝ))
    (hskips : ∀ s ∈ cfg.skips, 1 ≤ s ∧ s < cfg.layers) (hL : 1 ≤ cfg.layers)
    (hWF : WF cfg p) :
    ((∀ row ∈ x, row.length = cfg.input_sizes.1) →
      ∃ out, forward cfg p x true = some out ∧ out.length = x.length ∧
        ∀ row ∈ out, row.length = 1 ∧ ∀ v ∈ row, 0 ≤ v) ∧
    ((∀ row ∈ x, row.length = cfg.input_sizes.1 + cfg.input_sizes.2) →
      ∃ out, forward cfg p x false = some out ∧ out.length = x.length ∧
        ∀ row ∈ out, row.length = 4 ∧
          (∀ j, j < 3 → ∀ v, row[j]? = some v → 0 < v ∧ v < 1) ∧
          ∀ v, row[3]? = some v → 0 ≤ v) := by
  have h0 : 0 ∉ cfg.skips := fun hmem => by
    have := hskips 0 hmem
    omega
  constructor
  · intro hx
    exact mapRows_sound (fun r hr => by
      obtain ⟨sig, hfwd, _, hl1, hpos⟩ :=
        rowForward_sigma_sound cfg p r none h0 hWF hL (hx r hr)
      exact ⟨sig, hfwd, hl1, fun v hv => le_of_lt (hpos v hv)⟩)
  · intro hx
    exact mapRows_sound (fun r hr => by
      obtain ⟨rgb, sig, hfwd, h3, hrgb, _, hl1, hpos⟩ :=
        rowForward_color_sound cfg p r none h0 hWF hL (hx r hr)
      refine ⟨rgb ++ sig, hfwd, by simp [h3, hl1], ?_, ?_⟩
      · intro j hj v hv
        rw [List.getElem?_append_left (by omega)] at hv
        exact hrgb v (List.getElem?_mem hv)
      · intro v hv
        rw [List.getElem?_append_right (by omega)] at hv
        exact le_of_lt (hpos v (List.getElem?_mem hv)))

/-- Claim C7 (status: confirmed): for a model with `input_sizes = [3, 3]`,
two (B=1) inputs of width 6 that agree on the first 3 columns (xyz) and
differ only in the last 3 (direction) produce outputs whose sigma column
(everything after the 3 rgb columns) is identical: density depends only on
position, never on direction. -/
theorem claim_C7_sigma_dir_independence (cfg : Config) (p : Params)
    (x1 x2 : List ℝ) (d1 d2 : Option (List ℝ))
    (hskips : ∀ s ∈ cfg.skips, 1 ≤ s ∧ s < cfg.layers) (hL : 1 ≤ cfg.layers)
    (hWF : WF cfg p) (hin : cfg.input_sizes = (3, 3))
    (hx1 : x1.length = 6) (hx2 : x2.length = 6)
    (heq : x1.take 3 = x2.take 3) :
    (rowForward cfg p x1 d1 false).isSome = true ∧
    (rowForward cfg p x1 d1 false).map (fun o => o.drop 3) =
      (rowForward cfg p x2 d2 false).map (fun o => o.drop 3) := by
  have h0 : 0 ∉ cfg.skips := fun hmem => by
    have := hskips 0 hmem
    omega
  have hx1w : x1.length = cfg.input_sizes.1 + cfg.input_sizes.2 := by
    rw [hin]
    simpa using hx1
  have hx2w : x2.length = cfg.input_sizes.1 + cfg.input_sizes.2 := by
    rw [hin]
    simpa using hx2
  obtain ⟨rgb1, sig1, hf1, h31, _, hsig1, _, _⟩ :=
    rowForward_color_sound cfg p x1 d1 h0 hWF hL hx1w
  obtain ⟨rgb2, sig2, hf2, h32, _, hsig2, _, _⟩ :=
    rowForward_color_sound cfg p x2 d2 h0 hWF hL hx2w
  have htake : x1.take cfg.input_sizes.1 = x2.take cfg.input_sizes.1 := by
    rw [hin]
    exact heq
  have hsig12 : sig1 = sig2 := by
    rw [htake] at hsig1
    have := hsig1.symm.trans hsig2
    injection this
  constructor
  · rw [hf1]
    rfl
  · rw [hf1, hf2, Option.map_some', Option.map_some']
    have e1 : (rgb1 ++ sig1).drop 3 = sig1 := by
      rw [← h31]
      exact List.drop_left rgb1 sig1
    have e2 : (rgb2 ++ sig2).drop 3 = sig2 := by
      rw [← h32]
      exact List.drop_left rgb2 sig2
    rw [e1, e2, hsig12]

/-- Claim C8 (status: confirmed): the forward pass is deterministic — it is a
pure function of the weights and the arguments, with no internal randomness
and no hidden state: two invocations on identical weights and identical
inputs produce identical output. -/
theorem claim_C8_deterministic (cfg1 cfg2 : Config) (p1 p2 : Params)
    (x1 x2 : List ℝ) (d1 d2 : Option (List ℝ)) (b1 b2 : Bool)
    (hc : cfg1 = cfg2) (hp : p1 = p2) (hx : x1 = x2) (hd : d1 = d2)
    (hb : b1 = b2) :
    rowForward cfg1 p1 x1 d1 b1 = rowForward cfg2 p2 x2 d2 b2 := by
  subst hc
  subst hp
  subst hx
  subst hd
  subst hb
  rfl

/-- Claim C9 (status: confirmed): for every well-configured model, a forward
call whose input row width disagrees with the configured `input_sizes`
(the split width `input_sizes[0] + input_sizes[1]` when color is computed and
the model has a direction input, `input_sizes[0]` otherwise) fails with a
shape error, embedded as `none`; the parameters `p` are a read-only argument
of the purely functional `rowForward`, so no partial mutation can occur. -/
theorem claim_C9_shape_mismatch (cfg : Config) (p : Params) (x : List ℝ)
    (d : Option (List ℝ)) (sigma_only : Bool)
    (hskips : ∀ s ∈ cfg.skips, 1 ≤ s ∧ s < cfg.layers) (hL : 1 ≤ cfg.layers)
    (hWF : WF cfg p) (hm : cfg.mapping = true → 1 ≤ cfg.mapping_sizes.1)
    (hx : x.length ≠ (if sigma_only = false ∧ 0 < cfg.input_sizes.2
      then cfg.input_sizes.1 + cfg.input_sizes.2 else cfg.input_sizes.1)) :
    rowForward cfg p x d sigma_only = none := by
  have h0 : 0 ∉ cfg.skips := fun hmem => by
    have := hskips 0 hmem
    omega
  exact rowForward_bad_width cfg p x d sigma_only h0 hL hWF hm hx

/-- Claim C10 (status: confirmed): for every well-configured model with
`input_sizes[1] > 0`, calling forward with `sigma_only=True` on the full
concatenated `(xyz ++ dir)` row performs no split — the whole row goes to the
xyz encoder — and the call fails with a shape error at the first trunk linear
layer (embedded as `none`) instead of computing density on the xyz part. -/
theorem claim_C10_sigma_only_no_split (cfg : Config) (p : Params) (x : List ℝ)
    (d : Option (List ℝ))
    (hskips : ∀ s ∈ cfg.skips, 1 ≤ s ∧ s < cfg.layers) (hL : 1 ≤ cfg.layers)
    (hWF : WF cfg p) (hm : cfg.mapping = true → 1 ≤ cfg.mapping_sizes.1)
    (hs2 : 0 < cfg.input_sizes.2)
    (hx : x.length = cfg.input_sizes.1 + cfg.input_sizes.2) :
    rowForward cfg p x d true = none := by
  have h0 : 0 ∉ cfg.skips := fun hmem => by
    have := hskips 0 hmem
    omega
  apply rowForward_bad_width cfg p x d true h0 hL hWF hm
  rw [if_neg (by simp)]
  omega

/-! ### Concrete models, for the C4 counterexample and the witnesses -/

/-- A configuration with the out-of-range skip index 0 (layers = 2, feat = 2,
input_sizes = [3, 0], skips = [0], no siren, no mapping). -/
def cfg04 : Config :=
  ⟨2, 2, (3, 0), [0], false, false, (10, 4)⟩

/-- A configuration whose only skip index, 5, is `>= layers = 2`. -/
def cfgH : Config :=
  ⟨2, 2, (3, 0), [5], false, false, (10, 4)⟩

/-- Zero-weight parameters with exactly the shapes `NeRF.__init__` builds for
`cfg04` (and for `cfgH`, whose shapes are the same). -/
noncomputable def p04 : Params :=
  ⟨[zeroLin 3 2, zeroLin 2 2], zeroLin 2 1, zeroLin 2 2, zeroLin 2 1,
    zeroLin 1 3⟩

/-- A well-configured witness model: layers = 2, feat = 2,
input_sizes = [3, 3], skips = [1], mapping with 1 frequency per branch; the
encoded widths are `in_size = (6, 6)`. -/
def cfgW : Config :=
  ⟨2, 2, (3, 3), [1], false, true, (1, 1)⟩

/-- Zero-weight parameters with exactly the shapes `NeRF.__init__` builds for
`cfgW`: trunk `[Linear(6, 2), Linear(2 + 6, 2)]`, heads
`Linear(2, 1), Linear(2, 2), Linear(2 + 6, 1), Linear(1, 3)`. -/
noncomputable def pW : Params :=
  ⟨[zeroLin 6 2, zeroLin 8 2], zeroLin 2 1, zeroLin 2 2, zeroLin 8 1,
    zeroLin 1 3⟩

lemma WF_cfg04 : WF cfg04 p04 := by
  refine ⟨?_, zeroLin_WF 2 1, zeroLin_WF 2 2, zeroLin_WF 2 1, zeroLin_WF 1 3⟩
  have hfs : fc_shapes cfg04 = [(3, 2), (2, 2)] := by decide
  rw [hfs]
  exact List.Forall₂.cons (zeroLin_WF 3 2)
    (List.Forall₂.cons (zeroLin_WF 2 2) List.Forall₂.nil)

lemma WF_cfgH : WF cfgH p04 := by
  refine ⟨?_, zeroLin_WF 2 1, zeroLin_WF 2 2, zeroLin_WF 2 1, zeroLin_WF 1 3⟩
  have hfs : fc_shapes cfgH = [(3, 2), (2, 2)] := by decide
  rw [hfs]
  exact List.Forall₂.cons (zeroLin_WF 3 2)
    (List.Forall₂.cons (zeroLin_WF 2 2) List.Forall₂.nil)

lemma WF_cfgW : WF cfgW pW := by
  refine ⟨?_, zeroLin_WF 2 1, zeroLin_WF 2 2, zeroLin_WF 8 1, zeroLin_WF 1 3⟩
  have hfs : fc_shapes cfgW = [(6, 2), (8, 2)] := by decide
  rw [hfs]
  exact List.Forall₂.cons (zeroLin_WF 6 2)
    (List.Forall₂.cons (zeroLin_WF 8 2) List.Forall₂.nil)

/-- Counterexample to claim C4: `NeRF.__init__` performs no validation.  With
`skips = [0]` — a skip index outside `[1, layers)` — construction succeeds
(the code builds exactly the `fc_shapes` layer shapes, which `p04`
instantiates), and the failure surfaces only at the first forward call: a
density-only forward on a correctly shaped width-3 row fails with a shape
error (`none`), because layer 0's input is doubled by the skip concatenation.
No `ConfigurationError` is raised at construction and the failure IS deferred
to the first forward call, contradicting the claim. -/
theorem claim_C4_counterexample :
    WF cfg04 p04 ∧ rowForward cfg04 p04 [0, 0, 0] none true = none := by
  refine ⟨WF_cfg04, ?_⟩
  have hl : p04.fc[0]? = some (zeroLin 3 2) := rfl
  have happ : (zeroLin 3 2).apply (if 0 ∈ cfg04.skips then
      encode0 cfg04 [0, 0, 0] ++ encode0 cfg04 [0, 0, 0]
      else encode0 cfg04 [0, 0, 0]) = none := by
    rw [if_pos (by decide)]
    apply Lin.apply_bad
    have he : (encode0 cfg04 [(0 : ℝ), 0, 0]).length = 3 := by
      simp [encode0, cfg04]
    simp [he, zeroLin]
  have hsplit : splitInput cfg04 [(0 : ℝ), 0, 0] none true =
      some ([(0 : ℝ), 0, 0], none) := splitInput_sigma cfg04 [0, 0, 0] none
  have hlay : cfg04.layers = 1 + 1 := rfl
  simp only [rowForward, hsplit, hlay, trunkGo, hl, happ]

/-- Claim C4, amended (status: corrected): `NeRF.__init__` never validates
its arguments and cannot raise.  A skip index `>= layers` is silently
ignored: the trunk shapes are the same as with no skips at all, and forward
succeeds on well-shaped input; a skip index 0 yields a constructed model
whose failure is deferred to the first forward call (see the
counterexample). -/
theorem claim_C4_no_construction_validation (cfg : Config) (p : Params)
    (x : List ℝ) (hhigh : ∀ s ∈ cfg.skips, cfg.layers ≤ s)
    (hL : 1 ≤ cfg.layers) (hWF : WF cfg p)
    (hx : x.length = cfg.input_sizes.1) :
    fc_shapes cfg = fc_shapes { cfg with skips := [] } ∧
    (rowForward cfg p x none true).isSome = true := by
  have h0 : 0 ∉ cfg.skips := fun hmem => by
    have := hhigh 0 hmem
    omega
  constructor
  · rw [fc_shapes_eq, fc_shapes_eq]
    congr 1
    apply List.map_congr_left
    intro i hi
    have hib := List.mem_range'_1.mp hi
    have hi_not : i ∉ cfg.skips := fun hmem => by
      have := hhigh i hmem
      omega
    rw [if_neg hi_not, if_neg (by simp)]
  · obtain ⟨sig, hfwd, _⟩ := rowForward_sigma_sound cfg p x none h0 hWF hL hx
    rw [hfwd]
    rfl

/-- Witness for the amended C4 at `cfgH` (its only skip index is 5 ≥ 2 =
layers): shapes equal the skip-free shapes and forward succeeds. -/
theorem claim_C4_witness :
    fc_shapes cfgH = fc_shapes { cfgH with skips := [] } ∧
    (rowForward cfgH p04 [0, 0, 0] none true).isSome = true :=
  claim_C4_no_construction_validation cfgH p04 [0, 0, 0] (by decide)
    (by decide) WF_cfgH rfl

/-- Witness for C5 at the concrete model `cfgW, pW` on a width-3 row. -/
theorem claim_C5_witness :
    (rowForward cfgW pW [0, 0, 0] none true).isSome = true :=
  (claim_C5_trunk_shapes cfgW pW [0, 0, 0] (by decide) (by decide) WF_cfgW
    rfl).2

/-- Witness for C6 at the concrete model `cfgW, pW` on a (1, 6) batch with
color requested. -/
theorem claim_C6_witness :
    ∃ out, forward cfgW pW [[0, 0, 0, 0, 0, 0]] false = some out ∧
      out.length = 1 ∧
      ∀ row ∈ out, row.length = 4 ∧
        (∀ j, j < 3 → ∀ v, row[j]? = some v → 0 < v ∧ v < 1) ∧
        ∀ v, row[3]? = some v → 0 ≤ v := by
  have h := (claim_C6_output_ranges cfgW pW [[0, 0, 0, 0, 0, 0]] (by decide)
    (by decide) WF_cfgW).2 (by
      intro row hrow
      rw [List.mem_singleton] at hrow
      subst hrow
      rfl)
  exact h

/-- Witness for C7 at `cfgW, pW` on two width-6 rows agreeing on the first 3
columns. -/
theorem claim_C7_witness :
    (rowForward cfgW pW [0, 0, 0, 0, 0, 0] none false).isSome = true :=
  (claim_C7_sigma_dir_independence cfgW pW [0, 0, 0, 0, 0, 0]
    [0, 0, 0, 0, 0, 1] none none (by decide) (by decide) WF_cfgW rfl rfl rfl
    rfl).1

/-- Witness for C8: two identical calls at the concrete model. -/
theorem claim_C8_witness :
    rowForward cfgW pW [0, 0, 0] none true =
      rowForward cfgW pW [0, 0, 0] none true :=
  claim_C8_deterministic cfgW cfgW pW pW [0, 0, 0] [0, 0, 0] none none true
    true rfl rfl rfl rfl rfl

/-- Witness for C9 at `cfgW, pW`: a width-2 row against the configured width
3 (density-only path) is rejected. -/
theorem claim_C9_witness :
    rowForward cfgW pW [0, 0] none true = none :=
  claim_C9_shape_mismatch cfgW pW [0, 0] none true (by decide) (by decide)
    WF_cfgW (by decide) (by decide)

/-- Witness for C10 at `cfgW, pW`: the full width-6 concatenated row with
`sigma_only = true` is rejected. -/
theorem claim_C10_witness :
    rowForward cfgW pW [0, 0, 0, 0, 0, 0] none true = none :=
  claim_C10_sigma_only_no_split cfgW pW [0, 0, 0, 0, 0, 0] none (by decide)
    (by decide) WF_cfgW (by decide) (by decide) rfl

end SatNeRF
